import Mathlib

/-!
Verification of the fuzzygrep core (src/fuzzygrep.py) against its
natural-language specification.  The Python data model and the core
operations (flattening, reverse indexing, key filtering, path resolution,
ranking) are embedded shallowly below; theorems about the embedding settle
the specification claims.
-/

namespace FuzzyGrep

/-- A loaded document: the JSON-like values Python's `json.load` produces
(floats are not needed by any claim).  CSV rows are represented as an
array of objects whose values are strings, matching `csv.DictReader`. -/
inductive JVal where
  | null : JVal
  | bool (b : Bool) : JVal
  | int (n : Int) : JVal
  | str (s : String) : JVal
  | obj (fields : List (String × JVal)) : JVal
  | arr (items : List JVal) : JVal

/-- Python `str(v)` for the scalar values that the core stringifies.
Containers are never stringified on the embedded core paths
(`_extract_json_values` and `_build_value_to_key_map` recurse into them
instead), so their clause is irrelevant. -/
def pyStr : JVal → String
  | .null => "None"
  | .bool true => "True"
  | .bool false => "False"
  | .int n => toString n
  | .str s => s
  | .obj _ => ""
  | .arr _ => ""

/-- Python truthiness of a value, as used by `if self.data:`. -/
def pyTruthy : JVal → Bool
  | .null => false
  | .bool b => b
  | .int n => !(n == 0)
  | .str s => !(s == "")
  | .obj fields => !fields.isEmpty
  | .arr items => !items.isEmpty

/-- Truthiness of `self.data`, which is `None` (falsy) after a failed load. -/
def optTruthy : Option JVal → Bool
  | none => false
  | some v => pyTruthy v

/-- Dot-path extension: `f"{prefix}.{k}" if prefix else k`. -/
def joinKey (pre k : String) : String :=
  if pre = "" then k else pre ++ "." ++ k

/-- Lexicographic comparison of character lists by code point, mirroring
Python string comparison (used by `sorted`). -/
def charListLe : List Char → List Char → Bool
  | [], _ => true
  | _ :: _, [] => false
  | a :: as, b :: bs =>
    if a.toNat < b.toNat then true
    else if b.toNat < a.toNat then false
    else charListLe as bs

/-- Python `a <= b` on strings. -/
def strLe (a b : String) : Bool := charListLe a.toList b.toList

/-- The string order as a propositional relation, for `List.insertionSort`. -/
def StrLeRel (a b : String) : Prop := strLe a b = true

instance : DecidableRel StrLeRel := fun a b => instDecidableEqBool (strLe a b) true

/-- Python `sorted` on a list of strings (a stable sort; on the deduplicated
inputs the core sorts, stability is irrelevant). -/
def sortStrings (xs : List String) : List String := List.insertionSort StrLeRel xs

/-- Python `sorted(list(set(xs)))`. -/
def pySortedSet (xs : List String) : List String := sortStrings xs.dedup

/-- Does `p` start `s`? -/
def charListStarts : List Char → List Char → Bool
  | [], _ => true
  | _ :: _, [] => false
  | a :: as, b :: bs => a == b && charListStarts as bs

/-- Does `p` occur contiguously inside `s`? -/
def charListContains (p : List Char) : List Char → Bool
  | [] => p.isEmpty
  | c :: rest => charListStarts p (c :: rest) || charListContains p rest

/-- Python `pattern in key`: case-sensitive unanchored substring containment. -/
def pySubstr (pat s : String) : Bool := charListContains pat.toList s.toList

/-- Helper for `pySplitDot`: splitting a character list at dots, with the
characters of the current chunk accumulated in reverse. -/
def splitOnDotAux : List Char → List Char → List String
  | [], acc => [String.mk acc.reverse]
  | c :: rest, acc =>
    if c = '.' then String.mk acc.reverse :: splitOnDotAux rest []
    else splitOnDotAux rest (c :: acc)

/-- Python `path.split(".")` (always at least one chunk: `"".split(".")`
is `[""]`). -/
def pySplitDot (s : String) : List String := splitOnDotAux s.toList []

/-- Python `value[key]` on a dict: lookup in the field list (JSON objects
have distinct keys, so first-match lookup is exact). -/
def dictGet (fields : List (String × JVal)) (k : String) : Option JVal :=
  match fields with
  | [] => none
  | (a, v) :: rest => if a = k then some v else dictGet rest k

/-- The segment-consuming loop of `_get_values_by_path`: one dict lookup per
segment; a missing key, or a list or scalar met before the segments run
out, yields `[]`; consuming all segments yields the single reached value. -/
def walkPath : JVal → List String → List JVal
  | v, [] => [v]
  | .obj fields, k :: rest =>
    match dictGet fields k with
    | some v => walkPath v rest
    | none => []
  | _, _ :: _ => []

mutual

/-- `_get_values_by_path`: a list at the top level is mapped over with the
full path; otherwise the dot-split path is walked segment by segment. -/
def get_values_by_path : JVal → String → List JVal
  | .arr items, path => getValuesList items path
  | .null, path => walkPath .null (pySplitDot path)
  | .bool b, path => walkPath (.bool b) (pySplitDot path)
  | .int n, path => walkPath (.int n) (pySplitDot path)
  | .str s, path => walkPath (.str s) (pySplitDot path)
  | .obj fields, path => walkPath (.obj fields) (pySplitDot path)

/-- The `for item in data: values.extend(...)` loop of `_get_values_by_path`. -/
def getValuesList : List JVal → String → List JVal
  | [], _ => []
  | item :: rest, path => get_values_by_path item path ++ getValuesList rest path

end

mutual

/-- `_extract_json_keys`: every dict key extends the dot path and is
emitted before recursing into its value; list elements are recursed into
without extending the path; scalars contribute nothing. -/
def extract_json_keys : JVal → String → List String
  | .obj fields, pre => extractKeysFields fields pre
  | .arr items, pre => extractKeysItems items pre
  | .null, _ => []
  | .bool _, _ => []
  | .int _, _ => []
  | .str _, _ => []

/-- The dict loop of `_extract_json_keys`. -/
def extractKeysFields : List (String × JVal) → String → List String
  | [], _ => []
  | (k, v) :: rest, pre =>
    (joinKey pre k :: extract_json_keys v (joinKey pre k)) ++ extractKeysFields rest pre

/-- The list loop of `_extract_json_keys`. -/
def extractKeysItems : List JVal → String → List String
  | [], _ => []
  | item :: rest, pre => extract_json_keys item pre ++ extractKeysItems rest pre

end

mutual

/-- `_extract_json_values`: dict values that are containers are recursed
into, scalar dict values are stringified and emitted; list elements are
recursed into (so a scalar that is directly a list element contributes
nothing, mirroring the source). -/
def extract_json_values : JVal → List String
  | .obj fields => extractValuesFields fields
  | .arr items => extractValuesItems items
  | .null => []
  | .bool _ => []
  | .int _ => []
  | .str _ => []

/-- The dict loop of `_extract_json_values`: container values are recursed
into, scalar values are stringified and emitted. -/
def extractValuesFields : List (String × JVal) → List String
  | [] => []
  | (_, .obj fs) :: rest => extract_json_values (.obj fs) ++ extractValuesFields rest
  | (_, .arr its) :: rest => extract_json_values (.arr its) ++ extractValuesFields rest
  | (_, .null) :: rest => pyStr .null :: extractValuesFields rest
  | (_, .bool b) :: rest => pyStr (.bool b) :: extractValuesFields rest
  | (_, .int n) :: rest => pyStr (.int n) :: extractValuesFields rest
  | (_, .str sv) :: rest => pyStr (.str sv) :: extractValuesFields rest

/-- The list loop of `_extract_json_values`. -/
def extractValuesItems : List JVal → List String
  | [] => []
  | item :: rest => extract_json_values item ++ extractValuesItems rest

end

/-- The value-to-keys mapping: a Python dict from stringified scalars to
the set of key paths containing them, in insertion order. -/
abbrev VKMap := List (String × List String)

/-- Python `set.update(keys)` on a key set represented as a duplicate-free
list in insertion order. -/
def setUnion (s : List String) : List String → List String
  | [] => s
  | x :: xs => setUnion (if s.contains x then s else s ++ [x]) xs

/-- The merge step of `_build_value_to_key_map`:
`if val not in m: m[val] = set()` followed by `m[val].update(ks)`. -/
def mapAddEntry (m : VKMap) (val : String) (ks : List String) : VKMap :=
  match m with
  | [] => [(val, setUnion [] ks)]
  | (v, s) :: rest =>
    if v = val then (v, setUnion s ks) :: rest else (v, s) :: mapAddEntry rest val ks

/-- Folding every entry of a nested map into the accumulated map, as the
`for val, keys in nested_map.items()` loops do. -/
def mergeMap (m1 : VKMap) : VKMap → VKMap
  | [] => m1
  | (val, ks) :: rest => mergeMap (mapAddEntry m1 val ks) rest

/-- Python dict lookup in a `VKMap`. -/
def mapFind? (m : VKMap) (k : String) : Option (List String) :=
  match m with
  | [] => none
  | (a, b) :: rest => if a = k then some b else mapFind? rest k

/-- The final `{val: sorted(list(keys)) ...}` comprehension of
`_build_value_to_key_map`. -/
def sortEntries (m : VKMap) : VKMap := m.map (fun e => (e.1, sortStrings e.2))

/-- All key paths stored anywhere in the map. -/
def unionKeys (m : VKMap) : List String := m.flatMap (fun e => e.2)

mutual

/-- `_build_value_to_key_map`: scalar dict values are recorded (stringified)
against the current dot path; container dict values and list elements are
recursed into and their maps merged; every returned map has its key lists
sorted.  A bare scalar yields the empty map, so scalars that are directly
list elements are not indexed, mirroring the source. -/
def build_value_to_key_map : JVal → String → VKMap
  | .obj fields, pre => sortEntries (buildFieldsAux fields pre [])
  | .arr items, pre => sortEntries (buildItemsAux items pre [])
  | .null, _ => []
  | .bool _, _ => []
  | .int _, _ => []
  | .str _, _ => []

/-- The dict loop of `_build_value_to_key_map`, with the accumulated map:
container values have their nested maps merged in, scalar values are
recorded against the extended dot path. -/
def buildFieldsAux : List (String × JVal) → String → VKMap → VKMap
  | [], _, acc => acc
  | (k, .obj fs) :: rest, pre, acc =>
    buildFieldsAux rest pre (mergeMap acc (build_value_to_key_map (.obj fs) (joinKey pre k)))
  | (k, .arr its) :: rest, pre, acc =>
    buildFieldsAux rest pre (mergeMap acc (build_value_to_key_map (.arr its) (joinKey pre k)))
  | (k, .null) :: rest, pre, acc =>
    buildFieldsAux rest pre (mapAddEntry acc (pyStr .null) [joinKey pre k])
  | (k, .bool b) :: rest, pre, acc =>
    buildFieldsAux rest pre (mapAddEntry acc (pyStr (.bool b)) [joinKey pre k])
  | (k, .int n) :: rest, pre, acc =>
    buildFieldsAux rest pre (mapAddEntry acc (pyStr (.int n)) [joinKey pre k])
  | (k, .str sv) :: rest, pre, acc =>
    buildFieldsAux rest pre (mapAddEntry acc (pyStr (.str sv)) [joinKey pre k])

/-- The list loop of `_build_value_to_key_map`, with the accumulated map. -/
def buildItemsAux : List JVal → String → VKMap → VKMap
  | [], _, acc => acc
  | item :: rest, pre, acc =>
    buildItemsAux rest pre (mergeMap acc (build_value_to_key_map item pre))

end

/-- `_build_value_to_key_map(self.data)` where `self.data` may be `None`
(`None` is neither a dict nor a list, so the result is the empty map). -/
def build_value_to_key_map_opt : Option JVal → VKMap
  | some d => build_value_to_key_map d ""
  | none => []

/-- The state of a `FuzzyJSONSearcher`:  `data` is `None` after a failed
load; `all_keys`/`all_values` are the raw traversal results; the three
derived caches are rebuilt by `_apply_key_filter`. -/
structure Searcher where
  data : Option JVal
  all_keys : List String
  all_values : List String
  unique_keys : List String
  unique_values : List String
  value_to_keys_map : VKMap
  allowed_keys_filter : List String

/-- The `for key ... for pattern ... if pattern in key: append; break` loop
of `_apply_key_filter`: keep the keys some pattern occurs in. -/
def filterKeysByPatterns (flt : List String) (keys : List String) : List String :=
  keys.filter (fun key => flt.any (fun pat => pySubstr pat key))

/-- Rebuilding the value map against the retained key universe: intersect
each entry with `uk` and drop entries that become empty. -/
def filterMapEntries (uk : List String) (m : VKMap) : VKMap :=
  m.filterMap (fun e =>
    let fk := e.2.filter (fun k => uk.contains k)
    if fk.isEmpty then none else some (e.1, fk))

/-- `_apply_key_filter`: with no filter, the caches are the sorted
deduplicated raw traversals and the full value map; with a filter, keys are
restricted by substring containment and the value map and value universe
are rebuilt from the surviving keys. -/
def apply_key_filter (s : Searcher) : Searcher :=
  if s.allowed_keys_filter.isEmpty then
    { s with
      unique_keys := pySortedSet s.all_keys
      unique_values := pySortedSet s.all_values
      value_to_keys_map := build_value_to_key_map_opt s.data }
  else
    { s with
      unique_keys := pySortedSet (filterKeysByPatterns s.allowed_keys_filter s.all_keys)
      unique_values := sortStrings
        ((filterMapEntries (pySortedSet (filterKeysByPatterns s.allowed_keys_filter s.all_keys))
          (build_value_to_key_map_opt s.data)).map (fun e => e.1))
      value_to_keys_map :=
        filterMapEntries (pySortedSet (filterKeysByPatterns s.allowed_keys_filter s.all_keys))
          (build_value_to_key_map_opt s.data) }

/-- The `/only` command: assign `_allowed_keys_filter` and re-run
`_apply_key_filter`. -/
def set_filter (s : Searcher) (pats : List String) : Searcher :=
  apply_key_filter { s with allowed_keys_filter := pats }

/-- `__init__` plus `_load_data`, given the file extension and the loader
outcome (`none` models a load failure; the loader itself does I/O and is
out of scope).  Keys and values are extracted only when the loaded data is
truthy; `_apply_key_filter` then reads `self._all_keys`, which was never
assigned when the data was falsy or the extension unsupported, raising
`AttributeError` — modelled as `Except.error`. -/
def load_data (ext : String) (parsed : Option JVal) : Except String Searcher :=
  let data : Option JVal :=
    if ext = ".json" then parsed else if ext = ".csv" then parsed else none
  let attrs : Option (List String × List String) :=
    if ext = ".json" then
      match parsed with
      | some d => if pyTruthy d then some (extract_json_keys d "", extract_json_values d) else none
      | none => none
    else if ext = ".csv" then
      match parsed with
      | some d =>
        if pyTruthy d then
          match d with
          | .arr (.obj fields :: _) => some (fields.map (fun f => f.1), [])
          | _ => none
        else none
      | none => none
    else none
  match attrs with
  | none => .error "AttributeError"
  | some (ks, vs) =>
    .ok (apply_key_filter
      { data := data, all_keys := ks, all_values := vs,
        unique_keys := [], unique_values := [], value_to_keys_map := [],
        allowed_keys_filter := [] })

/-- Ranking order on `(original position, candidate, score)` triples:
higher score first, ties broken by earlier original position. -/
def RankRel (a b : Nat × String × Nat) : Prop :=
  b.2.2 < a.2.2 ∨ (a.2.2 = b.2.2 ∧ a.1 ≤ b.1)

instance : DecidableRel RankRel := fun a b => by
  unfold RankRel; exact inferInstance

instance : IsTotal (Nat × String × Nat) RankRel where
  total a b := by unfold RankRel; omega

instance : IsTrans (Nat × String × Nat) RankRel where
  trans a b c hab hbc := by unfold RankRel at *; omega

/-- Modelled from the spec: `rapidfuzz.process.extract(query, candidates,
scorer=..., limit=..., score_cutoff=...)` is not part of this repository.
Per spec section 4.4, candidates are scored against the query, only those
scoring at least the cutoff are eligible, and at most `limit` of them are
returned ordered by descending score with ties broken by the candidate's
position in the original candidate sequence.  The scorer is an arbitrary
function standing for the weighted-ratio metric. -/
def rank_with_indices (scorer : String → String → Nat) (query : String)
    (candidates : List String) (limit cutoff : Nat) : List (Nat × String × Nat) :=
  (List.insertionSort RankRel
    ((candidates.enum.map (fun p => (p.1, p.2, scorer query p.2))).filter
      (fun t => cutoff ≤ t.2.2))).take limit

/-- Modelled from the spec: the `(candidate, score)` pairs `process.extract`
returns, positions dropped. -/
def extract_ranked (scorer : String → String → Nat) (query : String)
    (candidates : List String) (limit cutoff : Nat) : List (String × Nat) :=
  (rank_with_indices scorer query candidates limit cutoff).map (fun t => (t.2.1, t.2.2))

/-- `fuzzy_search`: candidates are the current unique keys or values, the
score cutoff is 60, and the limit defaults to 10 (the REPL always calls it
with that default). -/
def fuzzy_search (scorer : String → String → Nat) (s : Searcher) (query : String)
    (limit : Nat) (search_type : String) : List (String × Nat) :=
  extract_ranked scorer query
    (if search_type = "keys" then s.unique_keys else s.unique_values) limit 60

/-- `FuzzyCompleter.get_completions`: for a truthy (non-empty) text before
the cursor, the completions are the candidates of the matches produced
with limit 5 and cutoff 60; an empty text yields no completions. -/
def get_completions (scorer : String → String → Nat) (s : Searcher)
    (completion_type : String) (text : String) : List String :=
  if text = "" then []
  else
    (extract_ranked scorer text
      (if completion_type = "keys" then s.unique_keys else s.unique_values) 5 60).map
      (fun p => p.1)

/-- The document `{"a": [{"b": 1}]}`, whose key universe contains `a.b`
although the resolver cannot reach it through the list. -/
def docSeqNest : JVal := .obj [("a", .arr [.obj [("b", .int 1)]])]

/-- The spec's own example document
`{"user": {"name": "Alice", "tags": ["admin", "vip"]}}`. -/
def docUser : JVal :=
  .obj [("user", .obj [("name", .str "Alice"), ("tags", .arr [.str "admin", .str "vip"])])]

/-- The document `{"a": [{"b": 1}]}` again, bound separately for the C3
failing input. -/
def docSeqNest3 : JVal := .obj [("a", .arr [.obj [("b", .int 1)]])]

/-- A one-record CSV document `[{"a": "x"}]` as `csv.DictReader` yields it. -/
def csvOneRecord : JVal := .arr [.obj [("a", .str "x")]]

/-- The document `{"a": {"b": 1}}`: the key `a` is in the key universe but
under no reverse-index entry. -/
def docNested : JVal := .obj [("a", .obj [("b", .int 1)])]

/-- The witness document `{"a": {"b": 1}}` for the C6 theorem. -/
def docNestedW : JVal := .obj [("a", .obj [("b", .int 1)])]

/-- The searcher obtained by loading `docNestedW` as JSON. -/
def searcherNestedW : Searcher :=
  apply_key_filter
    { data := some docNestedW, all_keys := extract_json_keys docNestedW "",
      all_values := extract_json_values docNestedW,
      unique_keys := [], unique_values := [], value_to_keys_map := [],
      allowed_keys_filter := [] }

/-- A tiny searcher whose caches are already derived, for ranking witnesses. -/
def searcherTiny : Searcher :=
  apply_key_filter
    { data := some docUser, all_keys := extract_json_keys docUser "",
      all_values := extract_json_values docUser,
      unique_keys := [], unique_values := [], value_to_keys_map := [],
      allowed_keys_filter := [] }

/-- A scorer giving every candidate the top score, used to instantiate the
ranking theorem (the weighted-ratio metric is abstract in the embedding). -/
def topScorer (q _c : String) : Nat := if q = "" then 0 else 100

section Theorems

/-! ### Helper lemmas -/

theorem mem_sortStrings {a : String} {l : List String} : a ∈ sortStrings l ↔ a ∈ l :=
  List.mem_insertionSort StrLeRel

theorem mem_pySortedSet {a : String} {l : List String} : a ∈ pySortedSet l ↔ a ∈ l := by
  unfold pySortedSet
  rw [mem_sortStrings, List.mem_dedup]

theorem contains_iff_mem {a : String} {l : List String} : l.contains a = true ↔ a ∈ l := by
  unfold List.contains
  exact List.elem_iff

theorem mem_setUnion {a : String} :
    ∀ (t s : List String), a ∈ setUnion s t ↔ a ∈ s ∨ a ∈ t := by
  intro t
  induction t with
  | nil => intro s; simp [setUnion]
  | cons x xs ih =>
    intro s
    rw [setUnion, ih]
    by_cases hx : s.contains x = true
    · rw [if_pos hx]
      have hxs : x ∈ s := contains_iff_mem.mp hx
      constructor
      · rintro (h | h)
        · exact Or.inl h
        · exact Or.inr (List.mem_cons_of_mem x h)
      · rintro (h | h)
        · exact Or.inl h
        · rcases List.mem_cons.mp h with h | h
          · exact Or.inl (h ▸ hxs)
          · exact Or.inr h
    · rw [if_neg hx]
      simp only [List.mem_append, List.mem_singleton, List.mem_cons]
      tauto

theorem unionKeys_nil : unionKeys [] = [] := rfl

theorem unionKeys_cons (e : String × List String) (m : VKMap) :
    unionKeys (e :: m) = e.2 ++ unionKeys m := by
  unfold unionKeys
  exact List.flatMap_cons e m _

theorem mem_unionKeys_mapAddEntry {a val : String} {ks : List String} :
    ∀ m : VKMap, a ∈ unionKeys (mapAddEntry m val ks) → a ∈ unionKeys m ∨ a ∈ ks := by
  intro m
  induction m with
  | nil =>
    intro h
    rw [mapAddEntry, unionKeys_cons, unionKeys_nil] at h
    rcases List.mem_append.mp h with h | h
    · have h2 := (mem_setUnion ks []).mp h
      exact Or.inr (h2.resolve_left (by simp))
    · simp at h
  | cons e rest ih =>
    intro h
    rw [mapAddEntry] at h
    by_cases he : e.1 = val
    · rw [if_pos he, unionKeys_cons] at h
      rcases List.mem_append.mp h with h | h
      · rcases (mem_setUnion ks e.2).mp h with h | h
        · exact Or.inl (by rw [unionKeys_cons]; exact List.mem_append.mpr (Or.inl h))
        · exact Or.inr h
      · exact Or.inl (by rw [unionKeys_cons]; exact List.mem_append.mpr (Or.inr h))
    · rw [if_neg he, unionKeys_cons] at h
      rcases List.mem_append.mp h with h | h
      · exact Or.inl (by rw [unionKeys_cons]; exact List.mem_append.mpr (Or.inl h))
      · rcases ih h with h | h
        · exact Or.inl (by rw [unionKeys_cons]; exact List.mem_append.mpr (Or.inr h))
        · exact Or.inr h

theorem mem_unionKeys_mergeMap {a : String} :
    ∀ (m2 m1 : VKMap), a ∈ unionKeys (mergeMap m1 m2) →
      a ∈ unionKeys m1 ∨ a ∈ unionKeys m2 := by
  intro m2
  induction m2 with
  | nil => intro m1 h; exact Or.inl h
  | cons e rest ih =>
    intro m1 h
    rw [mergeMap] at h
    rcases ih _ h with h | h
    · rcases mem_unionKeys_mapAddEntry m1 h with h | h
      · exact Or.inl h
      · exact Or.inr (by rw [unionKeys_cons]; exact List.mem_append.mpr (Or.inl h))
    · exact Or.inr (by rw [unionKeys_cons]; exact List.mem_append.mpr (Or.inr h))

theorem mem_unionKeys_sortEntries {a : String} :
    ∀ m : VKMap, a ∈ unionKeys (sortEntries m) ↔ a ∈ unionKeys m := by
  intro m
  induction m with
  | nil => simp [sortEntries]
  | cons e rest ih =>
    rw [sortEntries, List.map_cons]
    rw [unionKeys_cons, unionKeys_cons]
    simp only [List.mem_append]
    rw [show (unionKeys (List.map (fun e => (e.1, sortStrings e.2)) rest) =
      unionKeys (sortEntries rest)) from rfl, ih]
    constructor
    · rintro (h | h)
      · exact Or.inl (mem_sortStrings.mp h)
      · exact Or.inr h
    · rintro (h | h)
      · exact Or.inl (mem_sortStrings.mpr h)
      · exact Or.inr h

mutual

theorem mem_keys_build (d : JVal) (pre a : String)
    (h : a ∈ unionKeys (build_value_to_key_map d pre)) :
    a ∈ extract_json_keys d pre := by
  cases d with
  | obj fields =>
    rw [build_value_to_key_map, mem_unionKeys_sortEntries] at h
    rw [extract_json_keys]
    rcases mem_keys_buildFields fields pre [] a h with h | h
    · simp [unionKeys] at h
    · exact h
  | arr items =>
    rw [build_value_to_key_map, mem_unionKeys_sortEntries] at h
    rw [extract_json_keys]
    rcases mem_keys_buildItems items pre [] a h with h | h
    · simp [unionKeys] at h
    · exact h
  | null => rw [build_value_to_key_map] at h; simp [unionKeys] at h
  | bool b => rw [build_value_to_key_map] at h; simp [unionKeys] at h
  | int n => rw [build_value_to_key_map] at h; simp [unionKeys] at h
  | str s => rw [build_value_to_key_map] at h; simp [unionKeys] at h

theorem mem_keys_buildFields (fields : List (String × JVal)) (pre : String)
    (acc : VKMap) (a : String)
    (h : a ∈ unionKeys (buildFieldsAux fields pre acc)) :
    a ∈ unionKeys acc ∨ a ∈ extractKeysFields fields pre := by
  cases fields with
  | nil => rw [buildFieldsAux] at h; exact Or.inl h
  | cons f rest =>
    obtain ⟨k, v⟩ := f
    rw [extractKeysFields]
    simp only [List.mem_append, List.mem_cons]
    cases v with
    | obj fs =>
      rw [buildFieldsAux] at h
      rcases mem_keys_buildFields rest pre _ a h with h | h
      · rcases mem_unionKeys_mergeMap _ _ h with h | h
        · exact Or.inl h
        · exact Or.inr (Or.inl (Or.inr (mem_keys_build (.obj fs) (joinKey pre k) a h)))
      · exact Or.inr (Or.inr h)
    | arr its =>
      rw [buildFieldsAux] at h
      rcases mem_keys_buildFields rest pre _ a h with h | h
      · rcases mem_unionKeys_mergeMap _ _ h with h | h
        · exact Or.inl h
        · exact Or.inr (Or.inl (Or.inr (mem_keys_build (.arr its) (joinKey pre k) a h)))
      · exact Or.inr (Or.inr h)
    | null =>
      rw [buildFieldsAux] at h
      rcases mem_keys_buildFields rest pre _ a h with h | h
      · rcases mem_unionKeys_mapAddEntry _ h with h | h
        · exact Or.inl h
        · exact Or.inr (Or.inl (Or.inl (by simpa using h)))
      · exact Or.inr (Or.inr h)
    | bool b =>
      rw [buildFieldsAux] at h
      rcases mem_keys_buildFields rest pre _ a h with h | h
      · rcases mem_unionKeys_mapAddEntry _ h with h | h
        · exact Or.inl h
        · exact Or.inr (Or.inl (Or.inl (by simpa using h)))
      · exact Or.inr (Or.inr h)
    | int n =>
      rw [buildFieldsAux] at h
      rcases mem_keys_buildFields rest pre _ a h with h | h
      · rcases mem_unionKeys_mapAddEntry _ h with h | h
        · exact Or.inl h
        · exact Or.inr (Or.inl (Or.inl (by simpa using h)))
      · exact Or.inr (Or.inr h)
    | str sv =>
      rw [buildFieldsAux] at h
      rcases mem_keys_buildFields rest pre _ a h with h | h
      · rcases mem_unionKeys_mapAddEntry _ h with h | h
        · exact Or.inl h
        · exact Or.inr (Or.inl (Or.inl (by simpa using h)))
      · exact Or.inr (Or.inr h)

theorem mem_keys_buildItems (items : List JVal) (pre : String)
    (acc : VKMap) (a : String)
    (h : a ∈ unionKeys (buildItemsAux items pre acc)) :
    a ∈ unionKeys acc ∨ a ∈ extractKeysItems items pre := by
  cases items with
  | nil => rw [buildItemsAux] at h; exact Or.inl h
  | cons item rest =>
    rw [buildItemsAux] at h
    rw [extractKeysItems]
    simp only [List.mem_append]
    rcases mem_keys_buildItems rest pre _ a h with h | h
    · rcases mem_unionKeys_mergeMap _ _ h with h | h
      · exact Or.inl h
      · exact Or.inr (Or.inl (mem_keys_build item pre a h))
    · exact Or.inr (Or.inr h)

end

theorem keys_mapAddEntry (m : VKMap) (val : String) (ks : List String) :
    (mapAddEntry m val ks).map (fun e => e.1) =
      if val ∈ m.map (fun e => e.1) then m.map (fun e => e.1)
      else m.map (fun e => e.1) ++ [val] := by
  induction m with
  | nil => simp [mapAddEntry]
  | cons e rest ih =>
    rw [mapAddEntry]
    by_cases he : e.1 = val
    · rw [if_pos he]
      simp [he]
    · rw [if_neg he, List.map_cons, List.map_cons, ih]
      by_cases hv : val ∈ rest.map (fun e => e.1)
      · rw [if_pos hv, if_pos (List.mem_cons.mpr (Or.inr hv))]
      · rw [if_neg hv, if_neg (by
          intro hc
          rcases List.mem_cons.mp hc with hc | hc
          · exact he hc.symm
          · exact hv hc)]
        rfl

theorem nodup_keys_mapAddEntry {m : VKMap} (val : String) (ks : List String)
    (hm : (m.map (fun e => e.1)).Nodup) :
    ((mapAddEntry m val ks).map (fun e => e.1)).Nodup := by
  rw [keys_mapAddEntry]
  by_cases hv : val ∈ m.map (fun e => e.1)
  · rwa [if_pos hv]
  · rw [if_neg hv]
    exact List.Nodup.append hm (List.nodup_singleton val)
      (by simpa [List.disjoint_singleton] using hv)

theorem nodup_keys_mergeMap :
    ∀ (m2 m1 : VKMap), (m1.map (fun e => e.1)).Nodup →
      ((mergeMap m1 m2).map (fun e => e.1)).Nodup := by
  intro m2
  induction m2 with
  | nil => intro m1 h; exact h
  | cons e rest ih =>
    intro m1 h
    rw [mergeMap]
    exact ih _ (nodup_keys_mapAddEntry e.1 e.2 h)

theorem keys_sortEntries (m : VKMap) :
    (sortEntries m).map (fun e => e.1) = m.map (fun e => e.1) := by
  rw [sortEntries, List.map_map]
  rfl

theorem nodup_keys_buildFields (fields : List (String × JVal)) (pre : String) :
    ∀ acc : VKMap, (acc.map (fun e => e.1)).Nodup →
      ((buildFieldsAux fields pre acc).map (fun e => e.1)).Nodup := by
  induction fields with
  | nil => intro acc h; rw [buildFieldsAux]; exact h
  | cons f rest ih =>
    intro acc h
    obtain ⟨k, v⟩ := f
    cases v with
    | obj fs => rw [buildFieldsAux]; exact ih _ (nodup_keys_mergeMap _ _ h)
    | arr its => rw [buildFieldsAux]; exact ih _ (nodup_keys_mergeMap _ _ h)
    | null => rw [buildFieldsAux]; exact ih _ (nodup_keys_mapAddEntry _ _ h)
    | bool b => rw [buildFieldsAux]; exact ih _ (nodup_keys_mapAddEntry _ _ h)
    | int n => rw [buildFieldsAux]; exact ih _ (nodup_keys_mapAddEntry _ _ h)
    | str sv => rw [buildFieldsAux]; exact ih _ (nodup_keys_mapAddEntry _ _ h)

theorem nodup_keys_buildItems (items : List JVal) (pre : String) :
    ∀ acc : VKMap, (acc.map (fun e => e.1)).Nodup →
      ((buildItemsAux items pre acc).map (fun e => e.1)).Nodup := by
  induction items with
  | nil => intro acc h; rw [buildItemsAux]; exact h
  | cons item rest ih =>
    intro acc h
    rw [buildItemsAux]
    exact ih _ (nodup_keys_mergeMap _ _ h)

theorem nodup_keys_build (d : JVal) (pre : String) :
    ((build_value_to_key_map d pre).map (fun e => e.1)).Nodup := by
  cases d with
  | obj fields =>
    rw [build_value_to_key_map, keys_sortEntries]
    exact nodup_keys_buildFields fields pre [] (by simp)
  | arr items =>
    rw [build_value_to_key_map, keys_sortEntries]
    exact nodup_keys_buildItems items pre [] (by simp)
  | null => rw [build_value_to_key_map]; simp
  | bool b => rw [build_value_to_key_map]; simp
  | int n => rw [build_value_to_key_map]; simp
  | str s => rw [build_value_to_key_map]; simp

theorem nodup_keys_build_opt (data : Option JVal) :
    ((build_value_to_key_map_opt data).map (fun e => e.1)).Nodup := by
  cases data with
  | none => simp [build_value_to_key_map_opt]
  | some d => exact nodup_keys_build d ""

theorem mapFind?_eq_none_iff {m : VKMap} {k : String} :
    mapFind? m k = none ↔ k ∉ m.map (fun e => e.1) := by
  induction m with
  | nil => simp [mapFind?]
  | cons e rest ih =>
    rw [mapFind?]
    by_cases he : e.1 = k
    · rw [if_pos he]
      simp [he]
    · rw [if_neg he, ih]
      simp only [List.map_cons, List.mem_cons]
      constructor
      · intro h hc
        rcases hc with hc | hc
        · exact he hc.symm
        · exact h hc
      · intro h hc
        exact h (Or.inr hc)

theorem mapFind?_isSome_iff {m : VKMap} {k : String} :
    (mapFind? m k).isSome = true ↔ k ∈ m.map (fun e => e.1) := by
  rcases hf : mapFind? m k with _ | ks
  · simpa using mapFind?_eq_none_iff.mp hf
  · simp only [Option.isSome_some, true_iff]
    by_contra hm
    rw [mapFind?_eq_none_iff.mpr hm] at hf
    exact Option.noConfusion hf

theorem keys_filterMapEntries_sub {uk : List String} {m : VKMap} {x : String}
    (h : x ∈ (filterMapEntries uk m).map (fun e => e.1)) :
    x ∈ m.map (fun e => e.1) := by
  rcases List.mem_map.mp h with ⟨e, he, hx⟩
  rcases List.mem_filterMap.mp he with ⟨a, ha, hfa⟩
  simp only [filterMapEntries] at hfa
  by_cases hb : ((a.2.filter (fun y => uk.contains y)).isEmpty : Bool) = true
  · rw [if_pos hb] at hfa
    exact absurd hfa (by simp)
  · rw [if_neg hb] at hfa
    have : e.1 = a.1 := by rw [← Option.some_inj.mp hfa]
    exact List.mem_map.mpr ⟨a, ha, by rw [← this, hx]⟩

theorem mapFind?_filterMapEntries_none (uk : List String) (m : VKMap) (val : String)
    (h : mapFind? m val = none) :
    mapFind? (filterMapEntries uk m) val = none := by
  rw [mapFind?_eq_none_iff] at h ⊢
  intro hc
  exact h (keys_filterMapEntries_sub hc)

theorem mapFind?_filterMapEntries_some (uk : List String) :
    ∀ (m : VKMap), (m.map (fun e => e.1)).Nodup →
      ∀ (val : String) (ks : List String), mapFind? m val = some ks →
        mapFind? (filterMapEntries uk m) val =
          (if (ks.filter (fun x => uk.contains x)).isEmpty then none
           else some (ks.filter (fun x => uk.contains x))) := by
  intro m
  induction m with
  | nil => intro _ val ks hfind; exact absurd hfind (by simp [mapFind?])
  | cons e rest ih =>
    intro hnd val ks hfind
    obtain ⟨a, b⟩ := e
    rw [List.map_cons, List.nodup_cons] at hnd
    rw [mapFind?] at hfind
    rw [filterMapEntries, List.filterMap_cons]
    by_cases ha : a = val
    · rw [if_pos ha] at hfind
      have hb : b = ks := Option.some_inj.mp hfind
      subst hb
      subst ha
      by_cases hempty : ((b.filter (fun x => uk.contains x)).isEmpty : Bool) = true
      · simp only [hempty, if_pos]
        rw [mapFind?_eq_none_iff]
        intro hc
        exact hnd.1 (keys_filterMapEntries_sub hc)
      · simp only [hempty, Bool.false_eq_true, if_false]
        rw [mapFind?, if_pos rfl]
    · rw [if_neg ha] at hfind
      by_cases hempty : ((b.filter (fun x => uk.contains x)).isEmpty : Bool) = true
      · simp only [hempty, if_pos]
        exact ih hnd.2 val ks hfind
      · simp only [hempty, Bool.false_eq_true, if_false]
        rw [mapFind?, if_neg ha]
        exact ih hnd.2 val ks hfind

theorem mem_unionKeys_iff {k : String} {m : VKMap} :
    k ∈ unionKeys m ↔ ∃ e ∈ m, k ∈ e.2 :=
  List.mem_flatMap

theorem mem_unionKeys_filterMapEntries {k : String} {uk : List String} {m : VKMap}
    (h : k ∈ unionKeys (filterMapEntries uk m)) : k ∈ uk := by
  rcases mem_unionKeys_iff.mp h with ⟨e, he, hk⟩
  rcases List.mem_filterMap.mp he with ⟨a, _, hfa⟩
  simp only [filterMapEntries] at hfa
  by_cases hempty : ((a.2.filter (fun x => uk.contains x)).isEmpty : Bool) = true
  · rw [if_pos hempty] at hfa
    exact absurd hfa (by simp)
  · rw [if_neg hempty] at hfa
    have he2 : e.2 = a.2.filter (fun x => uk.contains x) := by
      rw [← Option.some_inj.mp hfa]
    rw [he2] at hk
    exact contains_iff_mem.mp (List.mem_filter.mp hk).2

theorem load_json_ok (d : JVal) (s : Searcher)
    (h : load_data ".json" (some d) = .ok s) :
    s = apply_key_filter
      { data := some d, all_keys := extract_json_keys d "",
        all_values := extract_json_values d, unique_keys := [],
        unique_values := [], value_to_keys_map := [],
        allowed_keys_filter := [] } := by
  by_cases hd : pyTruthy d = true
  · simp only [load_data, hd, if_pos, String.reduceEq, reduceIte] at h
    injection h with h2
    exact h2.symm
  · simp [load_data, hd] at h

theorem filter_frame (s : Searcher) :
    (apply_key_filter s).data = s.data ∧
    (apply_key_filter s).all_keys = s.all_keys ∧
    (apply_key_filter s).all_values = s.all_values ∧
    (apply_key_filter s).allowed_keys_filter = s.allowed_keys_filter := by
  unfold apply_key_filter
  split <;> exact ⟨rfl, rfl, rfl, rfl⟩

theorem apply_key_filter_congr (s1 s2 : Searcher)
    (h1 : s1.data = s2.data) (h2 : s1.all_keys = s2.all_keys)
    (h3 : s1.all_values = s2.all_values)
    (h4 : s1.allowed_keys_filter = s2.allowed_keys_filter) :
    apply_key_filter s1 = apply_key_filter s2 := by
  cases s1
  cases s2
  simp only at h1 h2 h3 h4
  subst h1; subst h2; subst h3; subst h4
  unfold apply_key_filter
  split <;> rfl

theorem apply_key_filter_idem (s : Searcher) :
    apply_key_filter (apply_key_filter s) = apply_key_filter s := by
  have hf := filter_frame s
  exact apply_key_filter_congr _ _ hf.1 hf.2.1 hf.2.2.1 hf.2.2.2

theorem snd_mem_of_mem_enum {α : Type} {p : Nat × α} {l : List α}
    (h : p ∈ l.enum) : p.2 ∈ l := by
  obtain ⟨i, a⟩ := p
  obtain ⟨hi, ha⟩ := List.mem_enum h
  exact ha ▸ List.getElem_mem hi

theorem mem_rank_with_indices {scorer : String → String → Nat} {query : String}
    {cands : List String} {limit cutoff : Nat} {t : Nat × String × Nat}
    (h : t ∈ rank_with_indices scorer query cands limit cutoff) :
    t.2.2 = scorer query t.2.1 ∧ cutoff ≤ t.2.2 ∧ t.2.1 ∈ cands := by
  unfold rank_with_indices at h
  have h2 := (List.mem_insertionSort RankRel).mp (List.mem_of_mem_take h)
  have h3 := List.mem_filter.mp h2
  rcases List.mem_map.mp h3.1 with ⟨p, hp, ht⟩
  refine ⟨?_, ?_, ?_⟩
  · rw [← ht]
  · exact of_decide_eq_true h3.2
  · rw [← ht]
    exact snd_mem_of_mem_enum hp

theorem length_rank_with_indices (scorer : String → String → Nat) (query : String)
    (cands : List String) (limit cutoff : Nat) :
    (rank_with_indices scorer query cands limit cutoff).length ≤ limit := by
  unfold rank_with_indices
  rw [List.length_take]
  exact Nat.min_le_left _ _

theorem sorted_rank_with_indices (scorer : String → String → Nat) (query : String)
    (cands : List String) (limit cutoff : Nat) :
    List.Sorted RankRel (rank_with_indices scorer query cands limit cutoff) :=
  List.Pairwise.sublist (List.take_sublist _ _)
    (List.sorted_insertionSort RankRel _)

theorem rank_with_indices_empty_query {scorer : String → String → Nat}
    (hempty : ∀ c, scorer "" c = 0) (cands : List String) (limit : Nat) :
    rank_with_indices scorer "" cands limit 60 = [] := by
  unfold rank_with_indices
  have hfil : ((cands.enum.map (fun p => (p.1, p.2, scorer "" p.2))).filter
      (fun t => decide (60 ≤ t.2.2))) = [] := by
    rw [List.filter_eq_nil_iff]
    intro t ht
    rcases List.mem_map.mp ht with ⟨p, _, hp⟩
    rw [← hp]
    simp [hempty p.2]
  rw [hfil]
  simp [List.insertionSort]

theorem rank_with_indices_empty_cands (scorer : String → String → Nat)
    (query : String) (limit cutoff : Nat) :
    rank_with_indices scorer query [] limit cutoff = [] := by
  unfold rank_with_indices
  simp [List.insertionSort]

/-! ### Claim theorems -/

/-- C1: the claim that every key path in the key universe resolves to a
non-empty sequence fails on the code.  For the document `{"a": [{"b": 1}]}`,
the flattener indexes `a.b`, but `_get_values_by_path` bails out with `[]`
when it meets the list under `a` in the middle of the walk. -/
theorem c1_indexed_key_resolves_empty :
    "a.b" ∈ pySortedSet (extract_json_keys docSeqNest "") ∧
    get_values_by_path docSeqNest "a.b" = [] :=
  ⟨by decide, rfl⟩

/-- C2: the claim that a sequence met during resolution is mapped over with
the remaining segments fails on the code.  On the spec's own example
document, `resolve(D, "user.tags")` returns the one-element sequence
containing the whole list, not the flattened `["admin", "vip"]`. -/
theorem c2_resolver_returns_unflattened :
    get_values_by_path docUser "user.tags" = [.arr [.str "admin", .str "vip"]] ∧
    get_values_by_path docUser "user.tags" ≠ [.str "admin", .str "vip"] := by
  refine ⟨rfl, ?_⟩
  intro h
  rw [show get_values_by_path docUser "user.tags" =
    [.arr [.str "admin", .str "vip"]] from rfl] at h
  simp at h

/-- C3: reverse-index consistency fails on the code.  For `{"a": [{"b": 1}]}`
the reverse index maps the scalar `"1"` to the key path `a.b`, but resolving
`a.b` yields the empty sequence, which cannot include `"1"`. -/
theorem c3_reverse_index_key_unresolvable :
    mapFind? (build_value_to_key_map docSeqNest3 "") "1" = some ["a.b"] ∧
    get_values_by_path docSeqNest3 "a.b" = [] :=
  ⟨rfl, rfl⟩

/-- C4: the claim that an empty document yields empty universes without
throwing, and that an unsupported extension or failed load is handled
gracefully, fails on the code: whenever the loaded data is falsy
(empty document, `None` after a load failure) or the extension is
unsupported, `_all_keys` is never assigned and `_apply_key_filter` raises
`AttributeError`.  A truthy successful load works. -/
theorem c4_falsy_data_attribute_error :
    load_data ".json" (some (.obj [])) = .error "AttributeError" ∧
    load_data ".txt" (some docUser) = .error "AttributeError" ∧
    load_data ".json" none = .error "AttributeError" ∧
    (load_data ".json" (some docUser)).isOk = true :=
  ⟨rfl, rfl, rfl, rfl⟩

/-- C5 counterexample: for the CSV document `[{"a": "x"}]` the claim says
the value universe is the distinct field values `["x"]` and non-empty; the
code leaves it empty. -/
theorem c5_csv_value_universe_counterexample :
    (load_data ".csv" (some csvOneRecord)).toOption.map (fun s => s.unique_values) =
      some [] ∧
    (load_data ".csv" (some csvOneRecord)).toOption.map (fun s => s.unique_values) ≠
      some ["x"] := by
  refine ⟨rfl, ?_⟩
  intro h
  rw [show (load_data ".csv" (some csvOneRecord)).toOption.map (fun s => s.unique_values) =
    some [] from rfl] at h
  simp at h

/-- C5 amended: for every non-empty CSV document the unfiltered value
universe is empty — CSV field values are never added to `_all_values`
(only the value-to-keys map indexes them), so the derived `unique_values`
is `[]` regardless of the records' field values. -/
theorem c5_csv_value_universe_empty (fields : List (String × JVal)) (rest : List JVal) :
    ∃ s, load_data ".csv" (some (.arr (.obj fields :: rest))) = .ok s ∧
      s.unique_values = [] ∧
      s.all_keys = fields.map (fun f => f.1) ∧
      s.unique_keys = pySortedSet (fields.map (fun f => f.1)) ∧
      s.value_to_keys_map = build_value_to_key_map (.arr (.obj fields :: rest)) "" :=
  ⟨_, rfl, rfl, rfl, rfl, rfl⟩

/-- C6 counterexample: for `{"a": {"b": 1}}` the deduplicated flattening
output contains `a`, but the union of the reverse-index key-path sets is
only `{a.b}` — keys whose value is a composite never appear in the
reverse index, so the claimed equality of the two key sets fails. -/
theorem c6_key_sets_counterexample :
    "a" ∈ pySortedSet (extract_json_keys docNested "") ∧
    "a" ∉ unionKeys (build_value_to_key_map docNested "") :=
  ⟨by decide, by decide⟩

/-- C6 amended: the union of the reverse-index key-path sets is contained
in (not equal to) the deduplicated flattening output, and after any filter
every key path stored in a reverse-index entry is a member of the
post-filter key universe. -/
theorem c6_reverse_index_keys_included (d : JVal) (s : Searcher) (pats : List String)
    (hload : load_data ".json" (some d) = .ok s) :
    (∀ k, k ∈ unionKeys (build_value_to_key_map d "") →
      k ∈ pySortedSet (extract_json_keys d "")) ∧
    (∀ k, k ∈ unionKeys (set_filter s pats).value_to_keys_map →
      k ∈ (set_filter s pats).unique_keys) := by
  constructor
  · intro k h
    exact mem_pySortedSet.mpr (mem_keys_build d "" k h)
  · have hs := load_json_ok d s hload
    have hsf : set_filter s pats = apply_key_filter
        { data := some d, all_keys := extract_json_keys d "",
          all_values := extract_json_values d, unique_keys := [],
          unique_values := [], value_to_keys_map := [],
          allowed_keys_filter := pats } := by
      rw [hs]
      unfold set_filter
      exact apply_key_filter_congr _ _ (filter_frame _).1 (filter_frame _).2.1
        (filter_frame _).2.2.1 rfl
    rw [hsf]
    intro k h
    by_cases hp : pats.isEmpty = true
    · simp only [apply_key_filter, hp, if_pos, build_value_to_key_map_opt] at h ⊢
      exact mem_pySortedSet.mpr (mem_keys_build d "" k h)
    · simp only [apply_key_filter, hp, Bool.false_eq_true, if_false,
        build_value_to_key_map_opt] at h ⊢
      exact mem_unionKeys_filterMapEntries h

/-- C6 witness: the amended inclusion at `{"a": {"b": 1}}` with an empty
filter puts `a.b` in the key universe. -/
theorem c6_reverse_index_keys_included_witness :
    "a.b" ∈ (set_filter searcherNestedW []).unique_keys :=
  (c6_reverse_index_keys_included docNestedW searcherNestedW [] rfl).2 "a.b" (by decide)

/-- C7: for any scorer standing for the weighted-ratio metric (with the
weighted-ratio property that an empty query scores 0), every candidate
returned by `fuzzy_search` carries its score, scores at least the cutoff
60 and comes from the candidate set; at most `limit` results are returned
(10 is the search default, completion uses 5); the results are ordered by
descending score, and the position-tagged ranking is sorted by descending
score with ties broken by original candidate position; an empty query or
an empty candidate set yields an empty result, and an empty completion
text yields no completions. -/
theorem c7_ranking_contract (scorer : String → String → Nat) (s : Searcher)
    (query text : String) (limit : Nat) (styp ctyp : String)
    (hempty : ∀ c, scorer "" c = 0) :
    (∀ c sc, (c, sc) ∈ fuzzy_search scorer s query limit styp →
      sc = scorer query c ∧ 60 ≤ sc ∧
      c ∈ (if styp = "keys" then s.unique_keys else s.unique_values)) ∧
    (fuzzy_search scorer s query limit styp).length ≤ limit ∧
    (fuzzy_search scorer s query limit styp).Pairwise (fun x y => y.2 ≤ x.2) ∧
    List.Sorted RankRel
      (rank_with_indices scorer query
        (if styp = "keys" then s.unique_keys else s.unique_values) limit 60) ∧
    (query = "" → fuzzy_search scorer s query limit styp = []) ∧
    ((if styp = "keys" then s.unique_keys else s.unique_values) = [] →
      fuzzy_search scorer s query limit styp = []) ∧
    get_completions scorer s ctyp "" = [] ∧
    (get_completions scorer s ctyp text).length ≤ 5 := by
  refine ⟨?_, ?_, ?_, ?_, ?_, ?_, ?_, ?_⟩
  · intro c sc h
    unfold fuzzy_search extract_ranked at h
    rcases List.mem_map.mp h with ⟨t, ht, hct⟩
    have hp := mem_rank_with_indices ht
    have hc : t.2.1 = c := congrArg Prod.fst hct
    have hsc : t.2.2 = sc := congrArg Prod.snd hct
    rw [hc, hsc] at hp
    exact ⟨hp.1, hp.2.1, hp.2.2⟩
  · unfold fuzzy_search extract_ranked
    rw [List.length_map]
    exact length_rank_with_indices _ _ _ _ _
  · unfold fuzzy_search extract_ranked
    refine List.Pairwise.map _ ?_ (sorted_rank_with_indices scorer query _ limit 60)
    intro a b hab
    rcases hab with hab | hab
    · exact Nat.le_of_lt hab
    · exact Nat.le_of_eq hab.1.symm
  · exact sorted_rank_with_indices scorer query _ limit 60
  · intro hq
    subst hq
    unfold fuzzy_search extract_ranked
    rw [rank_with_indices_empty_query hempty]
    rfl
  · intro hc
    unfold fuzzy_search extract_ranked
    rw [hc, rank_with_indices_empty_cands]
    rfl
  · unfold get_completions
    rw [if_pos rfl]
  · unfold get_completions
    by_cases ht : text = ""
    · rw [if_pos ht]
      exact Nat.zero_le 5
    · rw [if_neg ht]
      unfold extract_ranked
      rw [List.length_map, List.length_map]
      exact length_rank_with_indices _ _ _ _ _

/-- C7 witness: with a concrete scorer satisfying the empty-query property,
a search on the example searcher returns at most 10 results and an empty
query returns nothing. -/
theorem c7_ranking_contract_witness :
    (fuzzy_search topScorer searcherTiny "nam" 10 "keys").length ≤ 10 ∧
    fuzzy_search topScorer searcherTiny "" 10 "keys" = [] :=
  ⟨(c7_ranking_contract topScorer searcherTiny "nam" "x" 10 "keys" "keys"
      (fun _ => rfl)).2.1,
   (c7_ranking_contract topScorer searcherTiny "" "x" 10 "keys" "keys"
      (fun _ => rfl)).2.2.2.2.1 rfl⟩

/-- C8: a key path survives the filter iff the pattern list is empty or
some pattern is a substring of it; with a non-empty filter, each scalar's
rebuilt reverse-index entry is the restriction of its original key-path
set to the retained key universe, scalars whose restriction is empty are
dropped from the map, and the value universe is exactly the set of
scalars still present in the rebuilt map. -/
theorem c8_filter_semantics (s : Searcher) :
    (∀ k, k ∈ (apply_key_filter s).unique_keys ↔
      (k ∈ s.all_keys ∧ (s.allowed_keys_filter = [] ∨
        ∃ p ∈ s.allowed_keys_filter, pySubstr p k = true))) ∧
    (s.allowed_keys_filter ≠ [] →
      (∀ val ks, mapFind? (build_value_to_key_map_opt s.data) val = some ks →
        mapFind? (apply_key_filter s).value_to_keys_map val =
          (if (ks.filter (fun k => (apply_key_filter s).unique_keys.contains k)).isEmpty
           then none
           else some (ks.filter (fun k => (apply_key_filter s).unique_keys.contains k)))) ∧
      (∀ val, mapFind? (build_value_to_key_map_opt s.data) val = none →
        mapFind? (apply_key_filter s).value_to_keys_map val = none) ∧
      (∀ val, val ∈ (apply_key_filter s).unique_values ↔
        (mapFind? (apply_key_filter s).value_to_keys_map val).isSome = true)) := by
  by_cases hf : s.allowed_keys_filter.isEmpty = true
  · have hfe : s.allowed_keys_filter = [] := List.isEmpty_iff.mp hf
    constructor
    · intro k
      simp only [apply_key_filter, hf, if_pos]
      rw [mem_pySortedSet]
      simp [hfe]
    · intro hne
      exact absurd hfe hne
  · have hfne : s.allowed_keys_filter ≠ [] := by
      intro hc
      rw [hc] at hf
      exact hf rfl
    constructor
    · intro k
      simp only [apply_key_filter, hf, Bool.false_eq_true, if_false]
      rw [mem_pySortedSet]
      unfold filterKeysByPatterns
      rw [List.mem_filter]
      simp only [List.any_eq_true]
      constructor
      · rintro ⟨h1, h2⟩
        exact ⟨h1, Or.inr h2⟩
      · rintro ⟨h1, h2 | h2⟩
        · exact absurd h2 hfne
        · exact ⟨h1, h2⟩
    · intro _
      refine ⟨?_, ?_, ?_⟩
      · intro val ks hfind
        simp only [apply_key_filter, hf, Bool.false_eq_true, if_false]
        exact mapFind?_filterMapEntries_some _ _ (nodup_keys_build_opt s.data) val ks hfind
      · intro val hnone
        simp only [apply_key_filter, hf, Bool.false_eq_true, if_false]
        exact mapFind?_filterMapEntries_none _ _ val hnone
      · intro val
        simp only [apply_key_filter, hf, Bool.false_eq_true, if_false]
        rw [mem_sortStrings, mapFind?_isSome_iff]

/-- C8 witness: on the spec's example document with filter `["tags"]`, the
key `user.tags` is retained because `tags` is a substring of it. -/
theorem c8_filter_semantics_witness :
    "user.tags" ∈
      (apply_key_filter { searcherTiny with allowed_keys_filter := ["tags"] }).unique_keys :=
  ((c8_filter_semantics { searcherTiny with allowed_keys_filter := ["tags"] }).1
      "user.tags").mpr
    ⟨by decide, Or.inr ⟨"tags", by decide, by decide⟩⟩

/-- C9: re-running `_apply_key_filter` with the same non-empty filter is
idempotent, and clearing the filter afterwards restores exactly the
unfiltered derivations — the method always recomputes the caches from the
untouched `data`, `_all_keys` and `_all_values`. -/
theorem set_filter_twice (s : Searcher) (p q : List String) :
    set_filter (set_filter s p) q = set_filter s q := by
  unfold set_filter
  exact apply_key_filter_congr _ _ (filter_frame _).1 (filter_frame _).2.1
    (filter_frame _).2.2.1 rfl

theorem c9_filter_idempotent_clear (s : Searcher) (pats : List String)
    (hne : pats ≠ []) :
    apply_key_filter (set_filter s pats) = set_filter s pats ∧
    set_filter (set_filter s pats) pats = set_filter s pats ∧
    set_filter (set_filter s pats) [] = set_filter s [] :=
  ⟨apply_key_filter_idem _, set_filter_twice s pats pats, set_filter_twice s pats []⟩

/-- C9 witness: the idempotence and clearing law at a concrete searcher
and a concrete non-empty filter. -/
theorem c9_filter_idempotent_clear_witness :
    apply_key_filter (set_filter searcherTiny ["tags"]) = set_filter searcherTiny ["tags"] ∧
    set_filter (set_filter searcherTiny ["tags"]) ["tags"] = set_filter searcherTiny ["tags"] ∧
    set_filter (set_filter searcherTiny ["tags"]) [] = set_filter searcherTiny [] :=
  c9_filter_idempotent_clear searcherTiny ["tags"] (by simp)

/-- C10: `_apply_key_filter` — directly or through a filter assignment —
never changes the loaded document or the raw traversal results; only the
three derived caches are reassigned. -/
theorem c10_filter_frame_effect (s : Searcher) (pats : List String) :
    (apply_key_filter s).data = s.data ∧
    (apply_key_filter s).all_keys = s.all_keys ∧
    (apply_key_filter s).all_values = s.all_values ∧
    (apply_key_filter s).allowed_keys_filter = s.allowed_keys_filter ∧
    (set_filter s pats).data = s.data ∧
    (set_filter s pats).all_keys = s.all_keys ∧
    (set_filter s pats).all_values = s.all_values := by
  have h1 := filter_frame s
  have h2 := filter_frame { s with allowed_keys_filter := pats }
  exact ⟨h1.1, h1.2.1, h1.2.2.1, h1.2.2.2, h2.1, h2.2.1, h2.2.2.1⟩

end Theorems

end FuzzyGrep
